import Mathlib

/-!
Verification of the jellyfish-crypto elliptic/DER-signature layer.

Bytes are modelled as natural numbers and buffers as lists of naturals.
The key-pair wrapper is embedded from `packages/jellyfish-crypto/src/elliptic.ts`;
the external curve primitive (tiny-secp256k1) is abstracted as a record of
functions. The DER signature codec (`DERSignature` from `./der`) is not among
the available sources, so it is modelled from the specification (§4.1).
-/

namespace Jellyfish

/-- Reason codes for strict-DER validation failures, one per check of the
validation sequence of the codec specification. -/
inductive MalformedReason where
  | notSequence
  | lengthMismatch
  | missingIntegerTag
  | emptyInteger
  | unpaddedHighBit
  | redundantLeadingZero
  | trailingBytes
  | oversizedInteger
  deriving DecidableEq

/-- Errors raised by the DER signature codec: `invalidLength` from encode on a
non-64-byte input, `malformed` from decode on any strict-DER violation. -/
inductive CodecError where
  | invalidLength
  | malformed (reason : MalformedReason)
  deriving DecidableEq

namespace DERSignature

/-- Modelled from the spec: the codec source (`der.ts`, `DERSignature`) is not
among the available sources. Spec §4.1 encode, per-integer step: strip leading
zero bytes down to the minimal big-endian representation, prepend a single zero
byte when the first byte of the minimal form has its high bit set, and encode
the all-zero scalar as the single byte `0x00`. -/
def toDER (bs : List Nat) : List Nat :=
  match bs.dropWhile (fun b => b == 0) with
  | [] => [0]
  | b :: tl => if 0x80 ≤ b then 0 :: b :: tl else b :: tl

/-- Modelled from the spec: §4.1 encode. A 64-byte compact signature is split
into r and s halves, each converted by `toDER`, and assembled as `0x30`, the
overall length byte, then the two `0x02 <len> <bytes>` integer blocks; any
other input length fails with `InvalidLength`. -/
def encode (signature : List Nat) : Except CodecError (List Nat) :=
  if signature.length = 64 then
    let r := toDER (signature.take 32)
    let s := toDER (signature.drop 32)
    .ok (0x30 :: (r.length + s.length + 4) :: 0x02 :: r.length :: (r ++ 0x02 :: s.length :: s))
  else
    .error .invalidLength

/-- Modelled from the spec: content checks of one DER integer in §4.1 decode.
The content must be non-empty, must not have its high bit set on the first
byte (sign-ambiguous without a padding byte), and must not carry a redundant
leading zero byte unless required for sign-disambiguation; accepted content is
returned together with the unconsumed suffix of the buffer. -/
def intResult (bs rest2 : List Nat) : Except CodecError (List Nat × List Nat) :=
  match bs with
  | [] => .error (.malformed .emptyInteger)
  | [b] =>
    if 0x80 ≤ b then .error (.malformed .unpaddedHighBit)
    else .ok ([b], rest2)
  | b :: b2 :: tl =>
    if 0x80 ≤ b then .error (.malformed .unpaddedHighBit)
    else if b = 0 then
      if 0x80 ≤ b2 then .ok (b :: b2 :: tl, rest2)
      else .error (.malformed .redundantLeadingZero)
    else .ok (b :: b2 :: tl, rest2)

/-- Modelled from the spec: one `0x02 <len> <bytes>` integer block of §4.1
decode. Requires the `0x02` integer tag, a declared length covered by the
buffer, and content passing the canonicality checks of `intResult`. -/
def readInt (l : List Nat) : Except CodecError (List Nat × List Nat) :=
  match l with
  | t :: len :: rest =>
    if t = 0x02 then
      if rest.length < len then .error (.malformed .lengthMismatch)
      else intResult (rest.take len) (rest.drop len)
    else .error (.malformed .missingIntegerTag)
  | _ => .error (.malformed .missingIntegerTag)

/-- Modelled from the spec: §4.1 decode step 6. Unpad a canonical integer by
stripping leading zero bytes, reject it when the unpadded form exceeds 32
bytes, and left-pad with zeros to exactly 32 bytes for the compact form. -/
def fromDER (bs : List Nat) : Option (List Nat) :=
  if (bs.dropWhile (fun b => b == 0)).length ≤ 32 then
    some (List.replicate (32 - (bs.dropWhile (fun b => b == 0)).length) 0 ++
      bs.dropWhile (fun b => b == 0))
  else none

/-- Propagation of integer-block failures: a failed block read aborts the
decode with its error, a successful one continues with the block's parts. -/
def onOk (x : Except CodecError (List Nat × List Nat))
    (f : List Nat → List Nat → Except CodecError (List Nat)) :
    Except CodecError (List Nat) :=
  match x with
  | .error e => .error e
  | .ok (a, b) => f a b

/-- Modelled from the spec: §4.1 decode step 6 applied to both integers — the
decode succeeds with `r ‖ s` only when both unpadded integers fit in 32
bytes. -/
def finishInts (r? s? : Option (List Nat)) : Except CodecError (List Nat) :=
  match r?, s? with
  | some r, some s => .ok (r ++ s)
  | _, _ => .error (.malformed .oversizedInteger)

/-- Modelled from the spec: §4.1 decode validation sequence. The first byte
must be `0x30`, the declared total length must match the remaining buffer
exactly, the r and s integer blocks are read in order with strict canonicality
checks, no bytes may remain after s, and each integer must fit in 32 bytes once
unpadded; the result is the 64-byte compact form `r ‖ s`. -/
def decode (der : List Nat) : Except CodecError (List Nat) :=
  match der with
  | t :: len :: rest =>
    if t = 0x30 then
      if len = rest.length then
        onOk (readInt rest) (fun rB rest2 =>
          onOk (readInt rest2) (fun sB rest3 =>
            if rest3 = [] then finishInts (fromDER rB) (fromDER sB)
            else .error (.malformed .trailingBytes)))
      else .error (.malformed .lengthMismatch)
    else .error (.malformed .notSequence)
  | [t] =>
    if t = 0x30 then .error (.malformed .lengthMismatch)
    else .error (.malformed .notSequence)
  | [] => .error (.malformed .notSequence)

end DERSignature

/-- External secp256k1 curve primitive consumed by the key-pair wrapper,
corresponding to the `tiny-secp256k1` import of `elliptic.ts`:
compressed-point derivation from a scalar (`none` when the scalar yields no
valid point), deterministic compact signing, and compact verification. -/
structure Ecc where
  pointFromScalar : List Nat → Bool → Option (List Nat)
  sign : List Nat → List Nat → List Nat
  verify : List Nat → List Nat → List Nat → Bool

/-- Error raised by key-pair construction when the scalar yields no point. -/
inductive KeyError where
  | invalidPrivateKey
  deriving DecidableEq

/-- State of the `SECP256K1` elliptic pair of `elliptic.ts`: the private key
exactly as supplied and the compressed public point derived at construction. -/
structure SECP256K1 where
  privKey : List Nat
  pubKey : List Nat
  deriving DecidableEq

/-- Constructor of `SECP256K1` (`elliptic.ts` lines 37-44): stores the supplied
private key, derives the compressed public point via `ecc.pointFromScalar`, and
fails when the primitive reports no valid point. -/
def SECP256K1.make (ecc : Ecc) (privKey : List Nat) : Except KeyError SECP256K1 :=
  match ecc.pointFromScalar privKey true with
  | none => .error .invalidPrivateKey
  | some pub => .ok { privKey := privKey, pubKey := pub }

/-- Accessor `privateKey` of `elliptic.ts`: returns the stored private key. -/
def SECP256K1.privateKey (kp : SECP256K1) : List Nat := kp.privKey

/-- Accessor `publicKey` of `elliptic.ts`: returns the cached public point. -/
def SECP256K1.publicKey (kp : SECP256K1) : List Nat := kp.pubKey

/-- Method `sign` of `elliptic.ts`: the external deterministic signer produces
a compact signature over the hash and private key, then the codec encodes. -/
def SECP256K1.sign (ecc : Ecc) (kp : SECP256K1) (hash : List Nat) :
    Except CodecError (List Nat) :=
  DERSignature.encode (ecc.sign hash kp.privKey)

/-- Method `verify` of `elliptic.ts`: the codec decodes the DER signature (a
decode failure propagates), then the external primitive verifies the compact
signature against the cached public point. -/
def SECP256K1.verify (ecc : Ecc) (kp : SECP256K1) (hash derSignature : List Nat) :
    Except CodecError Bool :=
  match DERSignature.decode derSignature with
  | .error e => .error e
  | .ok signature => .ok (ecc.verify hash kp.pubKey signature)

/-- Factory `getEllipticPairFromPrivateKey` of `elliptic.ts` (lines 69-71):
constructs a `SECP256K1` pair directly from the supplied buffer. -/
def getEllipticPairFromPrivateKey (ecc : Ecc) (buffer : List Nat) :
    Except KeyError SECP256K1 :=
  SECP256K1.make ecc buffer

/-- Big-endian interpretation of a byte list as a natural number. -/
def bytesToNat (bs : List Nat) : Nat :=
  bs.foldl (fun acc b => acc * 256 + b) 0

/-- Order of the secp256k1 curve group. -/
def secp256k1Order : Nat :=
  0xFFFFFFFFFFFFFFFFFFFFFFFFFFFFFFFEBAAEDCE6AF48A03BBFD25E8CD0364141

/-- Strict canonicality of one DER integer content: non-empty, first byte below
`0x80`, and a leading zero byte only when the following byte has its high bit
set (or the content is exactly the single zero byte). -/
def IsCanonicalInt : List Nat → Prop
  | [] => False
  | b :: tl => b < 0x80 ∧ (b = 0 → tl = [] ∨ ∃ b2 t2, tl = b2 :: t2 ∧ 0x80 ≤ b2)

/-- Relation between a big-endian scalar and its DER integer content: the
content is the scalar with leading zero bytes stripped, a single zero byte is
prepended exactly when the high bit of the first minimal byte is set, and the
all-zero scalar yields the single byte `0x00`. -/
def MinimalDerInt (scalar rb : List Nat) : Prop :=
  (scalar.dropWhile (fun b => b == 0) = [] ∧ rb = [0]) ∨
  (∃ b tl, scalar.dropWhile (fun b => b == 0) = b :: tl ∧ b ≠ 0 ∧
    ((0x80 ≤ b ∧ rb = 0 :: b :: tl) ∨ (b < 0x80 ∧ rb = b :: tl)))

/-- Big-endian bytes of `secp256k1Order - 1`, a scalar above half the order. -/
def highSValueBytes : List Nat :=
  List.replicate 15 0xFF ++
    [0xFE, 0xBA, 0xAE, 0xDC, 0xE6, 0xAF, 0x48, 0xA0, 0x3B, 0xBF, 0xD2, 0x5E,
     0x8C, 0xD0, 0x36, 0x41, 0x40]

/-- Strict DER encoding of the signature with r = 1 and s = the order minus
one: a 1-byte r block and a 33-byte sign-padded s block. -/
def highSDer : List Nat :=
  [0x30, 0x26, 0x02, 0x01, 0x01] ++ [0x02, 0x21, 0x00] ++ highSValueBytes

/-- Compact 64-byte form of the signature with r = 1 and s = order minus 1. -/
def highSCompact : List Nat :=
  (List.replicate 31 0 ++ [0x01]) ++ highSValueBytes

/-- Sample external primitive used to instantiate the key-pair wrapper on
concrete inputs: it rejects the all-zero scalar and accepts any other key. -/
def eccDemo : Ecc where
  pointFromScalar := fun k _ => if k = List.replicate 32 0 then none else some (0x02 :: k)
  sign := fun _ _ => List.replicate 64 0
  verify := fun _ _ _ => true

deriving instance DecidableEq for Except

namespace DERSignature

/-- Leading zeros are gone after stripping: the head of the stripped list is
never the zero byte. -/
theorem dropWhile_zero_head {l tl : List Nat} {b : Nat}
    (h : l.dropWhile (fun x => x == 0) = b :: tl) : b ≠ 0 := by
  induction l with
  | nil => simp [List.dropWhile] at h
  | cons a as ih =>
    rw [List.dropWhile_cons] at h
    split at h
    · exact ih h
    · next ha =>
      cases h
      simpa using ha

/-- Stripping leading zeros is idempotent. -/
theorem dropWhile_dropWhile_zero (l : List Nat) :
    (l.dropWhile (fun x => x == 0)).dropWhile (fun x => x == 0) =
      l.dropWhile (fun x => x == 0) := by
  cases h : l.dropWhile (fun x => x == 0) with
  | nil => simp
  | cons b tl =>
    have hb := dropWhile_zero_head h
    rw [List.dropWhile_cons]
    simp [hb]

/-- A block of zero bytes in front is removed entirely by stripping. -/
theorem dropWhile_zero_replicate_append (k : Nat) (d : List Nat) :
    (List.replicate k 0 ++ d).dropWhile (fun b => b == 0) =
      d.dropWhile (fun b => b == 0) := by
  induction k with
  | zero => simp
  | succ n ih => simp [List.replicate_succ, List.dropWhile_cons, ih]

/-- Re-padding the stripped form with the removed zeros restores the list. -/
theorem replicate_zero_append_dropWhile (l : List Nat) :
    List.replicate (l.length - (l.dropWhile (fun b => b == 0)).length) 0 ++
      l.dropWhile (fun b => b == 0) = l := by
  have hmem : ∀ b ∈ l.takeWhile (fun b => b == 0), b = 0 := by
    intro b hb
    simpa using List.mem_takeWhile_imp hb
  have hlen : (l.takeWhile (fun b => b == 0)).length =
      l.length - (l.dropWhile (fun b => b == 0)).length := by
    have hc := congrArg List.length
      (List.takeWhile_append_dropWhile (p := fun b => b == 0) (l := l))
    rw [List.length_append] at hc
    omega
  have hrep : List.replicate (l.length - (l.dropWhile (fun b => b == 0)).length) 0 =
      l.takeWhile (fun b => b == 0) := by
    rw [← hlen]
    exact (List.eq_replicate_iff.mpr ⟨rfl, hmem⟩).symm
  rw [hrep, List.takeWhile_append_dropWhile]

/-- The per-integer encoding step always produces canonical integer bytes. -/
theorem toDER_canonical (l : List Nat) : IsCanonicalInt (toDER l) := by
  unfold toDER
  cases h : l.dropWhile (fun b => b == 0) with
  | nil => exact ⟨by norm_num, fun _ => Or.inl rfl⟩
  | cons b tl =>
    have hb := dropWhile_zero_head h
    show IsCanonicalInt (if 0x80 ≤ b then 0 :: b :: tl else b :: tl)
    by_cases h80 : 0x80 ≤ b
    · rw [if_pos h80]
      exact ⟨by norm_num, fun _ => Or.inr ⟨b, tl, rfl, h80⟩⟩
    · rw [if_neg h80]
      exact ⟨by omega, fun hb0 => absurd hb0 hb⟩

/-- The per-integer encoding step realises the minimal-bytes relation. -/
theorem toDER_minimal (l : List Nat) : MinimalDerInt l (toDER l) := by
  unfold toDER MinimalDerInt
  cases h : l.dropWhile (fun b => b == 0) with
  | nil => exact Or.inl ⟨rfl, rfl⟩
  | cons b tl =>
    have hb := dropWhile_zero_head h
    by_cases h80 : 0x80 ≤ b
    · refine Or.inr ⟨b, tl, rfl, hb, Or.inl ⟨h80, ?_⟩⟩
      show (if 0x80 ≤ b then 0 :: b :: tl else b :: tl) = 0 :: b :: tl
      rw [if_pos h80]
    · refine Or.inr ⟨b, tl, rfl, hb, Or.inr ⟨by omega, ?_⟩⟩
      show (if 0x80 ≤ b then 0 :: b :: tl else b :: tl) = b :: tl
      rw [if_neg h80]

/-- Canonical content passes the per-integer content checks unchanged. -/
theorem intResult_canonical (bs rest2 : List Nat) (h : IsCanonicalInt bs) :
    intResult bs rest2 = .ok (bs, rest2) := by
  match bs, h with
  | [b], ⟨h80, _⟩ =>
    rw [intResult, if_neg (by omega : ¬ 0x80 ≤ b)]
  | b :: b2 :: tl, ⟨h80, hz⟩ =>
    rw [intResult, if_neg (by omega : ¬ 0x80 ≤ b)]
    by_cases hb0 : b = 0
    · rcases hz hb0 with h1 | ⟨b2x, t2, heq, hb2⟩
      · exact absurd h1 (by simp)
      · cases heq
        rw [if_pos hb0, if_pos hb2]
    · rw [if_neg hb0]

/-- Inversion of accepted per-integer content: it is returned unchanged,
together with the untouched suffix, and it is canonical. -/
theorem intResult_ok {c r2 bs rest2 : List Nat}
    (h : intResult c r2 = .ok (bs, rest2)) :
    c = bs ∧ r2 = rest2 ∧ IsCanonicalInt bs := by
  match c with
  | [] => simp [intResult] at h
  | [b] =>
    rw [intResult] at h
    by_cases h80 : 0x80 ≤ b
    · rw [if_pos h80] at h; simp at h
    · rw [if_neg h80] at h
      simp only [Except.ok.injEq, Prod.mk.injEq] at h
      obtain ⟨h1, h2⟩ := h
      subst h1
      exact ⟨rfl, h2, by omega, fun _ => Or.inl rfl⟩
  | b :: b2 :: tl =>
    rw [intResult] at h
    by_cases h80 : 0x80 ≤ b
    · rw [if_pos h80] at h; simp at h
    · rw [if_neg h80] at h
      by_cases hb0 : b = 0
      · rw [if_pos hb0] at h
        by_cases hb2 : 0x80 ≤ b2
        · rw [if_pos hb2] at h
          simp only [Except.ok.injEq, Prod.mk.injEq] at h
          obtain ⟨h1, h2⟩ := h
          subst h1
          exact ⟨rfl, h2, by omega, fun _ => Or.inr ⟨b2, tl, rfl, hb2⟩⟩
        · rw [if_neg hb2] at h; simp at h
      · rw [if_neg hb0] at h
        simp only [Except.ok.injEq, Prod.mk.injEq] at h
        obtain ⟨h1, h2⟩ := h
        subst h1
        exact ⟨rfl, h2, by omega, fun hb => absurd hb hb0⟩

/-- Every rejection of per-integer content is a malformed-signature error. -/
theorem intResult_error {c r2 : List Nat} {e : CodecError}
    (h : intResult c r2 = .error e) : ∃ reason, e = .malformed reason := by
  match c with
  | [] => exact ⟨.emptyInteger, (Except.error.inj h).symm⟩
  | [b] =>
    rw [intResult] at h
    by_cases h80 : 0x80 ≤ b
    · rw [if_pos h80] at h
      exact ⟨.unpaddedHighBit, (Except.error.inj h).symm⟩
    · rw [if_neg h80] at h; simp at h
  | b :: b2 :: tl =>
    rw [intResult] at h
    by_cases h80 : 0x80 ≤ b
    · rw [if_pos h80] at h
      exact ⟨.unpaddedHighBit, (Except.error.inj h).symm⟩
    · rw [if_neg h80] at h
      by_cases hb0 : b = 0
      · rw [if_pos hb0] at h
        by_cases hb2 : 0x80 ≤ b2
        · rw [if_pos hb2] at h; simp at h
        · rw [if_neg hb2] at h
          exact ⟨.redundantLeadingZero, (Except.error.inj h).symm⟩
      · rw [if_neg hb0] at h; simp at h

/-- Reading an integer block built from canonical content consumes exactly the
block and returns the content unchanged. -/
theorem readInt_append (bs rest : List Nat) (h : IsCanonicalInt bs) :
    readInt (0x02 :: bs.length :: (bs ++ rest)) = .ok (bs, rest) := by
  have hnlt : ¬ (bs ++ rest).length < bs.length := by
    rw [List.length_append]; omega
  rw [readInt, if_pos rfl, if_neg hnlt, List.take_left, List.drop_left]
  exact intResult_canonical bs rest h

/-- Inversion of a successful integer-block read: the input starts with the
tag, the declared length is the content length, the content is canonical, and
the returned rest is exactly the unconsumed suffix. -/
theorem readInt_ok {l bs rest2 : List Nat} (h : readInt l = .ok (bs, rest2)) :
    l = 0x02 :: bs.length :: (bs ++ rest2) ∧ IsCanonicalInt bs := by
  match l with
  | [] => simp [readInt] at h
  | [t] => simp [readInt] at h
  | t :: len :: rest =>
    rw [readInt] at h
    by_cases ht : t = 0x02
    case neg => rw [if_neg ht] at h; simp at h
    rw [if_pos ht] at h
    by_cases hlt : rest.length < len
    case pos => rw [if_pos hlt] at h; simp at h
    rw [if_neg hlt] at h
    obtain ⟨hc, hr2, hcan⟩ := intResult_ok h
    have hlen : bs.length = len := by rw [← hc, List.length_take]; omega
    refine ⟨?_, hcan⟩
    rw [ht, ← hlen, ← hc, ← hr2, List.take_append_drop]

/-- Every failure of an integer-block read is a malformed-signature error. -/
theorem readInt_error {l : List Nat} {e : CodecError}
    (h : readInt l = .error e) : ∃ reason, e = .malformed reason := by
  match l with
  | [] => exact ⟨.missingIntegerTag, (Except.error.inj h).symm⟩
  | [t] => exact ⟨.missingIntegerTag, (Except.error.inj h).symm⟩
  | t :: len :: rest =>
    rw [readInt] at h
    by_cases ht : t = 0x02
    case neg =>
      rw [if_neg ht] at h
      exact ⟨.missingIntegerTag, (Except.error.inj h).symm⟩
    rw [if_pos ht] at h
    by_cases hlt : rest.length < len
    · rw [if_pos hlt] at h
      exact ⟨.lengthMismatch, (Except.error.inj h).symm⟩
    · rw [if_neg hlt] at h
      exact intResult_error h

/-- Unpadding inverts the per-integer encoding of a 32-byte scalar. -/
theorem fromDER_toDER (l : List Nat) (h : l.length = 32) :
    fromDER (toDER l) = some l := by
  rw [toDER]
  cases hd : l.dropWhile (fun b => b == 0) with
  | nil =>
    have hall : ∀ b ∈ l, b = 0 := by
      intro b hb
      simpa using List.dropWhile_eq_nil_iff.mp hd b hb
    have hrep : l = List.replicate 32 0 := List.eq_replicate_iff.mpr ⟨h, hall⟩
    rw [fromDER]
    simp [List.dropWhile, hrep]
  | cons b tl =>
    have hb := dropWhile_zero_head hd
    have hlen2 : (b :: tl).length ≤ 32 := by
      have hs := (List.dropWhile_sublist (l := l) (fun b => b == 0)).length_le
      rw [hd] at hs
      omega
    have hrepad : List.replicate (32 - (b :: tl).length) 0 ++ b :: tl = l := by
      have := replicate_zero_append_dropWhile l
      rw [hd, h] at this
      exact this
    show fromDER (if 0x80 ≤ b then 0 :: b :: tl else b :: tl) = some l
    by_cases h80 : 0x80 ≤ b
    · rw [if_pos h80, fromDER]
      have hstrip : (0 :: b :: tl).dropWhile (fun x => x == 0) = b :: tl := by
        rw [List.dropWhile_cons]
        simp [hb]
      rw [hstrip, if_pos hlen2, hrepad]
    · rw [if_neg h80, fromDER]
      have hstrip : (b :: tl).dropWhile (fun x => x == 0) = b :: tl := by
        rw [List.dropWhile_cons]
        simp [hb]
      rw [hstrip, if_pos hlen2, hrepad]

/-- The per-integer encoding inverts unpadding on canonical content, and the
unpadded compact form is exactly 32 bytes. -/
theorem toDER_fromDER {bs m : List Nat} (hc : IsCanonicalInt bs)
    (h : fromDER bs = some m) : toDER m = bs ∧ m.length = 32 := by
  rw [fromDER] at h
  by_cases hle : (bs.dropWhile (fun b => b == 0)).length ≤ 32
  case neg => rw [if_neg hle] at h; simp at h
  rw [if_pos hle] at h
  have hm : m = List.replicate (32 - (bs.dropWhile (fun b => b == 0)).length) 0 ++
      bs.dropWhile (fun b => b == 0) := (Option.some.inj h).symm
  have hmlen : m.length = 32 := by
    rw [hm, List.length_append, List.length_replicate]
    omega
  refine ⟨?_, hmlen⟩
  have hstrip : m.dropWhile (fun b => b == 0) = bs.dropWhile (fun b => b == 0) := by
    rw [hm, dropWhile_zero_replicate_append, dropWhile_dropWhile_zero]
  rw [toDER, hstrip]
  match bs, hc with
  | [b], ⟨h80, hz⟩ =>
    by_cases hb0 : b = 0
    · subst hb0
      rw [show ([0] : List Nat).dropWhile (fun b => b == 0) = [] from rfl]
    · have heq : ([b] : List Nat).dropWhile (fun x => x == 0) = [b] := by
        rw [List.dropWhile_cons]
        simp [hb0]
      rw [heq]
      show (if 0x80 ≤ b then [0, b] else [b]) = [b]
      rw [if_neg (by omega : ¬ 0x80 ≤ b)]
  | b :: b2 :: tl, ⟨h80, hz⟩ =>
    by_cases hb0 : b = 0
    · rcases hz hb0 with h1 | ⟨b2x, t2, heq, hb2⟩
      · exact absurd h1 (by simp)
      · cases heq
        subst hb0
        have hstrip2 : (0 :: b2 :: tl : List Nat).dropWhile (fun x => x == 0) = b2 :: tl := by
          rw [List.dropWhile_cons]
          simp [List.dropWhile_cons, show b2 ≠ 0 by omega]
        rw [hstrip2]
        show (if 0x80 ≤ b2 then 0 :: b2 :: tl else b2 :: tl) = 0 :: b2 :: tl
        rw [if_pos hb2]
    · have hstrip2 : (b :: b2 :: tl : List Nat).dropWhile (fun x => x == 0) = b :: b2 :: tl := by
        rw [List.dropWhile_cons]
        simp [hb0]
      rw [hstrip2]
      show (if 0x80 ≤ b then 0 :: b :: b2 :: tl else b :: b2 :: tl) = b :: b2 :: tl
      rw [if_neg (by omega : ¬ 0x80 ≤ b)]

/-- Failure propagation of `onOk` on a failed block read. -/
theorem onOk_error (e : CodecError)
    (f : List Nat → List Nat → Except CodecError (List Nat)) :
    onOk (.error e) f = .error e := rfl

/-- Continuation application of `onOk` on a successful block read. -/
theorem onOk_ok (a b : List Nat)
    (f : List Nat → List Nat → Except CodecError (List Nat)) :
    onOk (.ok (a, b)) f = f a b := rfl

/-- Assembly of the compact form when both integers fit in 32 bytes. -/
theorem finishInts_some (r s : List Nat) :
    finishInts (some r) (some s) = .ok (r ++ s) := rfl

/-- Inversion of a successful compact-form assembly. -/
theorem finishInts_ok_inv {a b : Option (List Nat)} {c : List Nat}
    (h : finishInts a b = .ok c) :
    ∃ r s, a = some r ∧ b = some s ∧ c = r ++ s := by
  match a, b with
  | some r, some s =>
    rw [finishInts] at h
    exact ⟨r, s, rfl, rfl, (Except.ok.inj h).symm⟩
  | some r, none =>
    rw [show finishInts (some r) none = .error (.malformed .oversizedInteger) from rfl] at h
    simp at h
  | none, none =>
    rw [show finishInts none none = .error (.malformed .oversizedInteger) from rfl] at h
    simp at h
  | none, some s =>
    rw [show finishInts none (some s) = .error (.malformed .oversizedInteger) from rfl] at h
    simp at h

/-- Every failure of compact-form assembly is the oversized-integer error. -/
theorem finishInts_error_inv {a b : Option (List Nat)} {e : CodecError}
    (h : finishInts a b = .error e) : e = .malformed .oversizedInteger := by
  match a, b with
  | some r, some s => rw [finishInts] at h; simp at h
  | some r, none =>
    rw [show finishInts (some r) none = .error (.malformed .oversizedInteger) from rfl] at h
    exact (Except.error.inj h).symm
  | none, none =>
    rw [show finishInts none none = .error (.malformed .oversizedInteger) from rfl] at h
    exact (Except.error.inj h).symm
  | none, some s =>
    rw [show finishInts none (some s) = .error (.malformed .oversizedInteger) from rfl] at h
    exact (Except.error.inj h).symm

/-- Reading an integer block that ends the buffer returns an empty rest. -/
theorem readInt_append_nil (bs : List Nat) (h : IsCanonicalInt bs) :
    readInt (0x02 :: bs.length :: bs) = .ok (bs, []) := by
  have hi := readInt_append bs [] h
  rwa [List.append_nil] at hi

/-- Decoding a well-formed DER assembly of two canonical, 32-byte-bounded
integer blocks succeeds with the concatenation of their compact forms. -/
theorem decode_blocks {rB sB r s : List Nat}
    (hrB : IsCanonicalInt rB) (hsB : IsCanonicalInt sB)
    (hr : fromDER rB = some r) (hs : fromDER sB = some s) :
    decode (0x30 :: (rB.length + sB.length + 4) ::
      0x02 :: rB.length :: (rB ++ 0x02 :: sB.length :: sB)) = .ok (r ++ s) := by
  have hlen : rB.length + sB.length + 4 =
      (0x02 :: rB.length :: (rB ++ 0x02 :: sB.length :: sB)).length := by
    simp only [List.length_cons, List.length_append]
    omega
  rw [decode, if_pos rfl, if_pos hlen]
  simp only [readInt_append rB (0x02 :: sB.length :: sB) hrB, onOk_ok]
  simp only [readInt_append_nil sB hsB, onOk_ok]
  simp [hr, hs, finishInts_some]

/-- Closed form of a successful encode on a 64-byte input. -/
theorem encode_eq_ok {x : List Nat} (h : x.length = 64) :
    encode x = .ok (0x30 ::
      ((toDER (x.take 32)).length + (toDER (x.drop 32)).length + 4) ::
      0x02 :: (toDER (x.take 32)).length ::
      (toDER (x.take 32) ++
        0x02 :: (toDER (x.drop 32)).length :: toDER (x.drop 32))) := by
  rw [encode, if_pos h]

/-- C1: for every 64-byte compact signature x, decoding the DER bytes
produced by encode(x) yields x again. -/
theorem decode_encode_roundtrip (x : List Nat) (h : x.length = 64) :
    ∃ der, encode x = .ok der ∧ decode der = .ok x := by
  have ht32 : (x.take 32).length = 32 := by rw [List.length_take]; omega
  have hd32 : (x.drop 32).length = 32 := by rw [List.length_drop]; omega
  refine ⟨0x30 :: ((toDER (x.take 32)).length + (toDER (x.drop 32)).length + 4) ::
    0x02 :: (toDER (x.take 32)).length ::
    (toDER (x.take 32) ++ 0x02 :: (toDER (x.drop 32)).length :: toDER (x.drop 32)), ?_, ?_⟩
  · rw [encode, if_pos h]
  · have hdec := decode_blocks (toDER_canonical (x.take 32))
      (toDER_canonical (x.drop 32)) (fromDER_toDER _ ht32) (fromDER_toDER _ hd32)
    rw [List.take_append_drop] at hdec
    exact hdec

/-- Witness for C1 at a concrete compact signature with r = 1 and s = 128. -/
theorem decode_encode_roundtrip_witness :
    (List.replicate 31 0 ++ [1] ++ (List.replicate 31 0 ++ [0x80])).length = 64 ∧
    ∃ der, encode (List.replicate 31 0 ++ [1] ++ (List.replicate 31 0 ++ [0x80])) = .ok der ∧
      decode der = .ok (List.replicate 31 0 ++ [1] ++ (List.replicate 31 0 ++ [0x80])) :=
  ⟨by decide, decode_encode_roundtrip _ (by decide)⟩

/-- C2: decode succeeds only on strictly canonical DER encodings — every
accepted input is exactly the encoding of the returned compact signature —
and every rejection is a malformed-signature error carrying one of the
validation-sequence reason codes. -/
theorem decode_strict_canonical (der : List Nat) :
    (∀ c, decode der = .ok c → encode c = .ok der) ∧
    (∀ e, decode der = .error e → ∃ reason, e = .malformed reason) := by
  constructor
  · intro c h
    match der with
    | [] => rw [decode] at h; simp at h
    | [t] =>
      rw [decode] at h
      by_cases ht : t = 0x30
      · rw [if_pos ht] at h; simp at h
      · rw [if_neg ht] at h; simp at h
    | t :: len :: rest =>
      rw [decode] at h
      by_cases ht : t = 0x30
      case neg => rw [if_neg ht] at h; simp at h
      rw [if_pos ht] at h
      by_cases hlen : len = rest.length
      case neg => rw [if_neg hlen] at h; simp at h
      rw [if_pos hlen] at h
      cases hri : readInt rest with
      | error e1 => simp only [hri, onOk_error] at h; simp at h
      | ok p =>
        obtain ⟨rB, rest2⟩ := p
        simp only [hri, onOk_ok] at h
        cases hsi : readInt rest2 with
        | error e1 => simp only [hsi, onOk_error] at h; simp at h
        | ok q =>
          obtain ⟨sB, rest3⟩ := q
          simp only [hsi, onOk_ok] at h
          by_cases h3 : rest3 = []
          case neg => rw [if_neg h3] at h; simp at h
          rw [if_pos h3] at h
          subst h3
          obtain ⟨r, s, hfr, hfs, hc⟩ := finishInts_ok_inv h
          obtain ⟨hrest_eq, hrBc⟩ := readInt_ok hri
          obtain ⟨hrest2_eq, hsBc⟩ := readInt_ok hsi
          obtain ⟨htr, hr32⟩ := toDER_fromDER hrBc hfr
          obtain ⟨hts, hs32⟩ := toDER_fromDER hsBc hfs
          subst hc
          rw [encode_eq_ok (by rw [List.length_append, hr32, hs32])]
          rw [List.take_left' hr32, List.drop_left' hr32, htr, hts]
          subst ht
          subst hlen
          rw [hrest_eq, hrest2_eq, List.append_nil]
          rw [show (0x02 :: rB.length :: (rB ++ 0x02 :: sB.length :: sB) : List Nat).length
              = rB.length + sB.length + 4 from by
            simp only [List.length_cons, List.length_append]
            omega]
  · intro e h
    match der with
    | [] => rw [decode] at h; exact ⟨.notSequence, (Except.error.inj h).symm⟩
    | [t] =>
      rw [decode] at h
      by_cases ht : t = 0x30
      · rw [if_pos ht] at h
        exact ⟨.lengthMismatch, (Except.error.inj h).symm⟩
      · rw [if_neg ht] at h
        exact ⟨.notSequence, (Except.error.inj h).symm⟩
    | t :: len :: rest =>
      rw [decode] at h
      by_cases ht : t = 0x30
      case neg =>
        rw [if_neg ht] at h
        exact ⟨.notSequence, (Except.error.inj h).symm⟩
      rw [if_pos ht] at h
      by_cases hlen : len = rest.length
      case neg =>
        rw [if_neg hlen] at h
        exact ⟨.lengthMismatch, (Except.error.inj h).symm⟩
      rw [if_pos hlen] at h
      cases hri : readInt rest with
      | error e1 =>
        simp only [hri, onOk_error] at h
        obtain rfl := Except.error.inj h
        exact readInt_error hri
      | ok p =>
        obtain ⟨rB, rest2⟩ := p
        simp only [hri, onOk_ok] at h
        cases hsi : readInt rest2 with
        | error e1 =>
          simp only [hsi, onOk_error] at h
          obtain rfl := Except.error.inj h
          exact readInt_error hsi
        | ok q =>
          obtain ⟨sB, rest3⟩ := q
          simp only [hsi, onOk_ok] at h
          by_cases h3 : rest3 = []
          · rw [if_pos h3] at h
            exact ⟨.oversizedInteger, finishInts_error_inv h⟩
          · rw [if_neg h3] at h
            obtain rfl := Except.error.inj h
            exact ⟨.trailingBytes, rfl⟩

/-- Witness for C2: a concrete accepted canonical input re-encodes to itself,
and a concrete redundant-leading-zero input is rejected as malformed. -/
theorem decode_strict_canonical_witness :
    encode (List.replicate 31 0 ++ [1] ++ (List.replicate 31 0 ++ [0x80])) =
      .ok [0x30, 0x07, 0x02, 0x01, 0x01, 0x02, 0x02, 0x00, 0x80] ∧
    ∃ reason, (CodecError.malformed .redundantLeadingZero) = .malformed reason :=
  ⟨(decode_strict_canonical [0x30, 0x07, 0x02, 0x01, 0x01, 0x02, 0x02, 0x00, 0x80]).1 _
      (by decide),
   (decode_strict_canonical [0x30, 0x07, 0x02, 0x02, 0x00, 0x01, 0x02, 0x01, 0x01]).2 _
      (by decide)⟩

/-- C3: encode emits `0x30`, the total length byte, then the r and s integer
blocks in order, each being `0x02`, a length byte, and the minimal big-endian
scalar bytes with a single zero byte prepended exactly when the high bit of
the first minimal byte is set; a zero scalar becomes the single byte `0x00`. -/
theorem encode_structure (x : List Nat) (h : x.length = 64) :
    ∃ rb sb, encode x =
      .ok ([0x30, rb.length + sb.length + 4, 0x02, rb.length] ++ rb ++
        [0x02, sb.length] ++ sb) ∧
      MinimalDerInt (x.take 32) rb ∧ MinimalDerInt (x.drop 32) sb := by
  refine ⟨toDER (x.take 32), toDER (x.drop 32), ?_, toDER_minimal _, toDER_minimal _⟩
  rw [encode_eq_ok h]
  simp

/-- Witness for C3 at the compact signature with r = 0 and s all-ones. -/
theorem encode_structure_witness :
    (List.replicate 32 0 ++ List.replicate 32 0xFF).length = 64 ∧
    ∃ rb sb, encode (List.replicate 32 0 ++ List.replicate 32 0xFF) =
      .ok ([0x30, rb.length + sb.length + 4, 0x02, rb.length] ++ rb ++
        [0x02, sb.length] ++ sb) ∧
      MinimalDerInt ((List.replicate 32 0 ++ List.replicate 32 0xFF).take 32) rb ∧
      MinimalDerInt ((List.replicate 32 0 ++ List.replicate 32 0xFF).drop 32) sb :=
  ⟨by decide, encode_structure _ (by decide)⟩

/-- C7: encode fails with InvalidLength exactly on inputs that are not 64
bytes, and proceeds to a successful encoding on every 64-byte input. -/
theorem encode_invalid_length (signature : List Nat) :
    (signature.length ≠ 64 → encode signature = .error .invalidLength) ∧
    (signature.length = 64 → ∃ out, encode signature = .ok out) := by
  constructor
  · intro h
    rw [encode, if_neg h]
  · intro h
    exact ⟨_, by rw [encode, if_pos h]⟩

/-- Witness for C7 at 63-, 65- and 64-byte inputs. -/
theorem encode_invalid_length_witness :
    (List.replicate 63 0).length ≠ 64 ∧
    encode (List.replicate 63 0) = .error .invalidLength ∧
    (List.replicate 65 0).length ≠ 64 ∧
    encode (List.replicate 65 0) = .error .invalidLength ∧
    (List.replicate 64 0).length = 64 ∧
    ∃ out, encode (List.replicate 64 0) = .ok out :=
  ⟨by decide, (encode_invalid_length _).1 (by decide), by decide,
   (encode_invalid_length _).1 (by decide), by decide,
   (encode_invalid_length _).2 (by decide)⟩

end DERSignature

/-- C5: decode does not enforce low-S canonicalization — it accepts a strict
canonical DER signature whose s component exceeds half the curve order and
returns the corresponding 64-byte compact form unchanged. -/
theorem decode_accepts_high_s :
    DERSignature.decode highSDer = .ok highSCompact ∧
    secp256k1Order < 2 * bytesToNat (highSCompact.drop 32) ∧
    bytesToNat (highSCompact.drop 32) < secp256k1Order ∧
    highSCompact.length = 64 :=
  ⟨by decide, by decide, by decide, by decide⟩

/-- C4: verify reports success only when both the DER decode and the external
curve verification succeed; when decode fails, verify propagates that decode
error and never returns a boolean, so it can never report success. -/
theorem verify_fail_closed (ecc : Ecc) (kp : SECP256K1) (hash der : List Nat) :
    (SECP256K1.verify ecc kp hash der = .ok true →
      ∃ sig, DERSignature.decode der = .ok sig ∧
        ecc.verify hash kp.pubKey sig = true) ∧
    (∀ e, DERSignature.decode der = .error e →
      SECP256K1.verify ecc kp hash der = .error e ∧
      ∀ b, SECP256K1.verify ecc kp hash der ≠ .ok b) := by
  constructor
  · intro h
    cases hd : DERSignature.decode der with
    | error e => rw [SECP256K1.verify, hd] at h; simp at h
    | ok sig =>
      rw [SECP256K1.verify, hd] at h
      simp only [Except.ok.injEq] at h
      exact ⟨sig, rfl, h⟩
  · intro e he
    constructor
    · simp [SECP256K1.verify, he]
    · intro b hb
      rw [SECP256K1.verify, he] at hb
      simp at hb

/-- Witness for C4: a canonical signature verifies under the sample primitive,
and a non-DER input makes verify propagate the malformed error. -/
theorem verify_fail_closed_witness :
    (∃ sig, DERSignature.decode [0x30, 0x07, 0x02, 0x01, 0x01, 0x02, 0x02, 0x00, 0x80] =
        .ok sig ∧
      eccDemo.verify [9] (⟨[1], [2]⟩ : SECP256K1).pubKey sig = true) ∧
    (SECP256K1.verify eccDemo ⟨[1], [2]⟩ [9] [0x31] =
        .error (.malformed .notSequence) ∧
      ∀ b, SECP256K1.verify eccDemo ⟨[1], [2]⟩ [9] [0x31] ≠ .ok b) :=
  ⟨(verify_fail_closed eccDemo ⟨[1], [2]⟩ [9]
      [0x30, 0x07, 0x02, 0x01, 0x01, 0x02, 0x02, 0x00, 0x80]).1 (by decide),
   (verify_fail_closed eccDemo ⟨[1], [2]⟩ [9] [0x31]).2 _ (by decide)⟩

/-- C6: sign is the DER encoding of the external deterministic signer's
compact signature over the hash and the stored private key, so two pairs
holding the same private key produce identical DER bytes. -/
theorem sign_deterministic (ecc : Ecc) (kp1 kp2 : SECP256K1) (hash : List Nat)
    (h : kp1.privKey = kp2.privKey) :
    SECP256K1.sign ecc kp1 hash = SECP256K1.sign ecc kp2 hash ∧
    SECP256K1.sign ecc kp1 hash =
      DERSignature.encode (ecc.sign hash kp1.privKey) := by
  constructor
  · rw [SECP256K1.sign, SECP256K1.sign, h]
  · rw [SECP256K1.sign]

/-- Witness for C6 on two pairs sharing a private key. -/
theorem sign_deterministic_witness :
    SECP256K1.sign eccDemo ⟨[1], [2]⟩ [7] = SECP256K1.sign eccDemo ⟨[1], [3]⟩ [7] ∧
    SECP256K1.sign eccDemo ⟨[1], [2]⟩ [7] =
      DERSignature.encode (eccDemo.sign [7] (⟨[1], [2]⟩ : SECP256K1).privKey) :=
  sign_deterministic eccDemo ⟨[1], [2]⟩ ⟨[1], [3]⟩ [7] (by decide)

/-- C8: construction fails with InvalidPrivateKey exactly when the external
primitive reports no valid point for the scalar; otherwise the pair holding
the supplied key and the derived point is produced. -/
theorem make_fails_iff_no_point (ecc : Ecc) (privKey : List Nat) :
    (SECP256K1.make ecc privKey = .error .invalidPrivateKey ↔
      ecc.pointFromScalar privKey true = none) ∧
    (∀ pub, ecc.pointFromScalar privKey true = some pub →
      SECP256K1.make ecc privKey = .ok { privKey := privKey, pubKey := pub }) := by
  constructor
  · constructor
    · intro h
      cases hp : ecc.pointFromScalar privKey true with
      | none => rfl
      | some pub => rw [SECP256K1.make, hp] at h; simp at h
    · intro h
      simp [SECP256K1.make, h]
  · intro pub h
    simp [SECP256K1.make, h]

/-- Witness for C8: the sample primitive rejects the all-zero scalar and
accepts a non-zero one. -/
theorem make_fails_iff_no_point_witness :
    SECP256K1.make eccDemo (List.replicate 32 0) = .error .invalidPrivateKey ∧
    SECP256K1.make eccDemo [7] = .ok { privKey := [7], pubKey := [0x02, 7] } :=
  ⟨(make_fails_iff_no_point eccDemo (List.replicate 32 0)).1.mpr (by decide),
   (make_fails_iff_no_point eccDemo [7]).2 [0x02, 7] (by decide)⟩

/-- C9: once constructed, privateKey returns the scalar exactly as supplied
and publicKey returns the point derived at construction; both accessors are
pure projections of the immutable pair state, with no failure path and no
recomputation through the external primitive. -/
theorem keypair_accessors (ecc : Ecc) (privKey pub : List Nat)
    (h : ecc.pointFromScalar privKey true = some pub) :
    ∃ kp, SECP256K1.make ecc privKey = .ok kp ∧
      kp.publicKey = pub ∧ kp.privateKey = privKey ∧
      kp.publicKey = kp.pubKey ∧ kp.privateKey = kp.privKey := by
  refine ⟨⟨privKey, pub⟩, ?_, rfl, rfl, rfl, rfl⟩
  simp [SECP256K1.make, h]

/-- Witness for C9 at a concrete key accepted by the sample primitive. -/
theorem keypair_accessors_witness :
    ∃ kp, SECP256K1.make eccDemo [7] = .ok kp ∧
      kp.publicKey = [0x02, 7] ∧ kp.privateKey = [7] ∧
      kp.publicKey = kp.pubKey ∧ kp.privateKey = kp.privKey :=
  keypair_accessors eccDemo [7] [0x02, 7] (by decide)

/-- C10: construction does not validate the private-key length — whenever the
external primitive derives a point for a buffer of any length, the factory
succeeds and privateKey returns exactly that buffer. -/
theorem construction_no_length_check (ecc : Ecc) (buffer pub : List Nat)
    (h : ecc.pointFromScalar buffer true = some pub) :
    ∃ kp, getEllipticPairFromPrivateKey ecc buffer = .ok kp ∧
      kp.privateKey = buffer := by
  refine ⟨⟨buffer, pub⟩, ?_, rfl⟩
  rw [getEllipticPairFromPrivateKey]
  simp [SECP256K1.make, h]

/-- Witness for C10 at a 1-byte private key accepted by the sample
primitive. -/
theorem construction_no_length_check_witness :
    ([5] : List Nat).length ≠ 32 ∧
    ∃ kp, getEllipticPairFromPrivateKey eccDemo [5] = .ok kp ∧
      kp.privateKey = [5] :=
  ⟨by decide, construction_no_length_check eccDemo [5] [0x02, 5] (by decide)⟩

end Jellyfish
